import Mathlib

/-!
Shallow embedding of the Orderly core (boundary analyzer, rule engine,
planner, executor) together with theorems settling the specification
claims about it.

Modelling conventions:
* A filesystem path is its list of components (`Path := List String`);
  `PathBuf::join` of a single component is `++ [c]`, `Path::starts_with`
  is component-list prefix, `to_string_lossy` renders components joined
  by "/".
* The set of existing files is a `Finset Path`; `fs::rename from to`
  requires `from` to exist and moves it; directories are not tracked
  (`create_dir_all` always succeeds, `remove_dir` is a no-op).
* `f32` confidences are modelled as rationals, `DateTime<Utc>` values as
  a `Nat` tick (and, where only the rendered year/month matter, as the
  year/month numbers carried by the file descriptor).
-/

namespace Orderly

/-- A filesystem path, as its list of components. -/
abbrev Path := List String

/-- Render a path the way `to_string_lossy` does (components joined by "/"). -/
def pathToString (p : Path) : String := String.intercalate "/" p

/-! String primitives used by the source, implemented over character lists
(the position-based loops of the core library are opaque to kernel
reduction, so concrete instances could not be evaluated through them). -/

/-- `str::to_lowercase` (ASCII case mapping, which agrees with Rust on
every string the heuristics compare). -/
def toLowerStr (s : String) : String := String.mk (s.toList.map Char.toLower)

/-- `str::contains` with a string pattern. -/
def strContainsSub (s pat : String) : Bool :=
  s.toList.tails.any (fun t => pat.toList.isPrefixOf t)

/-- `str::contains` with a character pattern. -/
def containsChar (s : String) (c : Char) : Bool := s.toList.contains c

/-- `str::starts_with`. -/
def startsWithStr (s pre : String) : Bool := pre.toList.isPrefixOf s.toList

/-- `str::ends_with`. -/
def endsWithStr (s post : String) : Bool := post.toList.isSuffixOf s.toList

/-- Replace every non-overlapping occurrence of `pat` in the input, left
to right (`str::replace`); an empty pattern leaves the input unchanged
(the source only substitutes the nonempty placeholder tokens).  The fuel
argument, instantiated with the input's length, makes the recursion
structural: every replacement consumes at least one character. -/
def replaceCharsAux (pat rep : List Char) : Nat → List Char → List Char
  | 0, l => l
  | _ + 1, [] => []
  | fuel + 1, c :: cs =>
    if pat.isPrefixOf (c :: cs) ∧ pat ≠ [] then
      rep ++ replaceCharsAux pat rep fuel (cs.drop (pat.length - 1))
    else
      c :: replaceCharsAux pat rep fuel cs

/-- `str::replace` on strings. -/
def replaceStr (s pat rep : String) : String :=
  String.mk (replaceCharsAux pat.toList rep.toList s.toList.length s.toList)

/-- Split on the `/` separator (how `PathBuf::join` of a multi-component
string fragments it). -/
def splitSlashChars : List Char → List (List Char)
  | [] => [[]]
  | c :: cs =>
    match splitSlashChars cs with
    | [] => [[]]
    | h :: t => if c = '/' then [] :: h :: t else (c :: h) :: t

/-- Splitting a rendered template into path components. -/
def splitSlash (s : String) : List String :=
  (splitSlashChars s.toList).map String.mk

/-- `DirectoryType` from `core/models.rs`. -/
inductive DirectoryType where
  | Normal
  | ProgramRoot
  | VirtualEnv
  | PackageRepo
  | System
deriving DecidableEq, Repr

/-- `OperationStatus` from `core/models.rs`. -/
inductive OperationStatus where
  | Pending
  | InProgress
  | Completed
  | Failed
  | Skipped
  | RolledBack
deriving DecidableEq, Repr

/-- `SuggestionSource` from `core/models.rs`. -/
inductive SuggestionSource where
  | AI
  | Rule
  | Memory
deriving DecidableEq, Repr

/-- `SemanticResult` from `core/models.rs` (confidence as a rational). -/
structure SemanticResult where
  tags : List String
  entities : List String
  year : Option Nat
  confidence : ℚ
  explanation : String
deriving DecidableEq, Repr

/-- `MoveSuggestion` from `core/models.rs`. -/
structure MoveSuggestion where
  targetPath : Path
  reason : String
  source : SuggestionSource
  confidence : ℚ
deriving DecidableEq, Repr

/-- `FileDescriptor` from `core/models.rs`.  The `modified_at` timestamp is
modelled by the year and month numbers that `render_path` would format
from it. -/
structure FileDescriptor where
  id : String
  name : String
  extension : String
  fullPath : Path
  parentDir : Path
  size : Nat
  modifiedYear : Nat
  modifiedMonth : Nat
  isDirectory : Bool
  directoryType : DirectoryType
  atomic : Bool
  semantic : Option SemanticResult
  suggestedAction : Option MoveSuggestion
  selected : Bool
deriving DecidableEq, Repr

/-- `MoveOperation` from `core/models.rs` (`from`/`to` renamed, `from` being
a Lean keyword). -/
structure MoveOperation where
  fromPath : Path
  toPath : Path
  fileId : String
  status : OperationStatus
  error : Option String
deriving DecidableEq, Repr

/-- `MovePlan` from `core/models.rs` (batch id supplied by the caller in the
model, standing for the generated UUID; `created_at` as a tick). -/
structure MovePlan where
  batchId : String
  createdAt : Nat
  operations : List MoveOperation
deriving DecidableEq, Repr

/-- `HistoryEntry` from `core/models.rs`. -/
structure HistoryEntry where
  batchId : String
  executedAt : Nat
  operations : List MoveOperation
  rolledBack : Bool
deriving DecidableEq, Repr

/-! ### Small list helpers mirroring the iterator methods used by the source -/

/-- `Iterator::position` (the index of the first element satisfying `p`). -/
def position? (p : α → Bool) : List α → Option Nat
  | [] => none
  | a :: l => if p a then some 0 else (position? p l).map (· + 1)

/-- `Iterator::enumerate` starting at `n`. -/
def enumFrom (n : Nat) : List α → List (Nat × α)
  | [] => []
  | a :: l => (n, a) :: enumFrom (n + 1) l

/-! ### Executor (`core/executor.rs`)

The executor's ambient filesystem is made explicit: `ExecutorState` holds
the set of existing file paths next to the in-memory history.  Persistence
of the history to `history.json` (`save_history`) has no observable effect
on the modelled state and is omitted. -/

/-- `ExecutionResult` from `core/executor.rs`. -/
structure ExecutionResult where
  successful : Nat
  failed : Nat
  skipped : Nat
  errors : List String
deriving DecidableEq, Repr

/-- `RollbackResult` from `core/executor.rs`. -/
structure RollbackResult where
  successful : Nat
  failed : Nat
  errors : List String
deriving DecidableEq, Repr

/-- The executor plus the ambient filesystem it acts on. -/
structure ExecutorState where
  fs : Finset Path
  history : List HistoryEntry
deriving DecidableEq

/-- `Executor::execute_single_operation`: create the destination's parent
directories (always succeeds in the model), fail if the destination
already exists, then `fs::rename` source to destination (which fails if
the source does not exist). -/
def executeSingleOperation (fs : Finset Path) (op : MoveOperation) :
    Except String (Finset Path) :=
  if op.toPath ∈ fs then .error "target exists"
  else if op.fromPath ∉ fs then .error "source missing"
  else .ok (insert op.toPath (fs.erase op.fromPath))

/-- The per-operation loop of `Executor::execute`: each operation is marked
`Completed`, or `Failed` with its error text recorded, and the loop
continues either way. -/
def executeOps (fs : Finset Path) :
    List MoveOperation → Finset Path × List MoveOperation × ExecutionResult
  | [] => (fs, [], ⟨0, 0, 0, []⟩)
  | op :: ops =>
    match executeSingleOperation fs op with
    | .ok fs' =>
      let r := executeOps fs' ops
      (r.1, { op with status := .Completed } :: r.2.1,
        { r.2.2 with successful := r.2.2.successful + 1 })
    | .error e =>
      let r := executeOps fs ops
      (r.1, { op with status := .Failed, error := some e } :: r.2.1,
        { r.2.2 with failed := r.2.2.failed + 1,
                     errors := ("move failed: " ++ e) :: r.2.2.errors })

/-- `Executor::execute`: run every operation in batch order, then append one
history entry snapshotting the operations, with `rolled_back = false`. -/
def Executor.execute (st : ExecutorState) (plan : MovePlan) (now : Nat) :
    ExecutorState × MovePlan × ExecutionResult :=
  let r := executeOps st.fs plan.operations
  (⟨r.1, st.history ++ [⟨plan.batchId, now, r.2.1, false⟩]⟩,
   { plan with operations := r.2.1 }, r.2.2)

/-- `Executor::rollback_operation_static`: fail if the moved-to location no
longer exists, recreate the original parent (always succeeds in the
model), rename back, and best-effort-remove the emptied directory (a
no-op in the model). -/
def rollbackOperationStatic (fs : Finset Path) (fromP toP : Path) :
    Except String (Finset Path) :=
  if toP ∉ fs then .error "moved-to location missing"
  else .ok (insert fromP (fs.erase toP))

/-- The per-operation loop of `Executor::rollback`: process the collected
`(index, from, to)` triples, marking rolled-back operations in the
snapshot and counting failures without retrying them. -/
def rollbackOps (fs : Finset Path) (ops : List MoveOperation) :
    List (Nat × MoveOperation) → Finset Path × List MoveOperation × RollbackResult
  | [] => (fs, ops, ⟨0, 0, []⟩)
  | (i, op) :: rest =>
    match rollbackOperationStatic fs op.fromPath op.toPath with
    | .ok fs2 =>
      let r := rollbackOps fs2 (ops.set i { op with status := .RolledBack }) rest
      (r.1, r.2.1, { r.2.2 with successful := r.2.2.successful + 1 })
    | .error e =>
      let r := rollbackOps fs ops rest
      (r.1, r.2.1, { r.2.2 with failed := r.2.2.failed + 1,
                                errors := ("rollback failed: " ++ e) :: r.2.2.errors })

/-- `Executor::rollback`: locate the history entry by batch id; reject an
absent or already-rolled-back batch without side effects; otherwise roll
back the `Completed` operations in reverse creation order and flip the
entry's `rolled_back` flag. -/
def Executor.rollback (st : ExecutorState) (batchId : String) :
    ExecutorState × RollbackResult :=
  match position? (fun e => e.batchId == batchId) st.history with
  | none => (st, ⟨0, 0, ["batch not found"]⟩)
  | some idx =>
    match st.history[idx]? with
    | none => (st, ⟨0, 0, ["batch not found"]⟩)
    | some entry =>
      if entry.rolledBack then (st, ⟨0, 0, ["batch already rolled back"]⟩)
      else
        let toRoll :=
          ((enumFrom 0 entry.operations).filter
            (fun p => p.2.status == OperationStatus.Completed)).reverse
        let r := rollbackOps st.fs entry.operations toRoll
        (⟨r.1, st.history.set idx
            { entry with operations := r.2.1, rolledBack := true }⟩, r.2.2)

/-! ### Boundary analyzer (`core/boundary.rs`)

The analyzer's heuristic tables are those installed by
`BoundaryAnalyzer::new`. -/

/-- `program_extensions` from `BoundaryAnalyzer::new`. -/
def programExtensions : List String :=
  [".exe", ".dll", ".so", ".dylib", ".sys", ".ocx", ".msi",
   ".app", ".deb", ".rpm", ".dmg"]

/-- `program_markers` from `BoundaryAnalyzer::new`. -/
def programMarkers : List String :=
  ["unins000.exe", "uninstall.exe", "setup.exe",
   "Contents", "MacOS", "Info.plist"]

/-- `dev_project_markers` from `BoundaryAnalyzer::new`. -/
def devProjectMarkers : List String :=
  ["package.json", "package-lock.json", "yarn.lock", "pnpm-lock.yaml",
   "requirements.txt", "setup.py", "pyproject.toml", "Pipfile",
   "Cargo.toml", "Cargo.lock",
   "CMakeLists.txt", "Makefile", "configure",
   ".csproj", ".fsproj", ".sln",
   "pom.xml", "build.gradle", "settings.gradle",
   "go.mod", "go.sum",
   "Gemfile", "Gemfile.lock"]

/-- `venv_dir_names` from `BoundaryAnalyzer::new`. -/
def venvDirNames : List String :=
  ["venv", ".venv", "env", ".env", "virtualenv", "__pycache__", ".pyc",
   "site-packages", "node_modules", "target", "vendor", "bin", "obj",
   "packages"]

/-- `system_path_prefixes_windows` from `BoundaryAnalyzer::new`. -/
def systemPathPrefixesWindows : List String :=
  ["C:\\Windows", "C:\\Program Files", "C:\\Program Files (x86)",
   "C:\\ProgramData"]

/-- `system_path_prefixes_unix` from `BoundaryAnalyzer::new`. -/
def systemPathPrefixesUnix : List String :=
  ["/usr", "/opt", "/bin", "/sbin", "/lib", "/etc", "/var",
   "/Applications"]

/-- `BoundaryAnalyzer::is_system_path`. -/
def isSystemPath (path : String) : Bool :=
  let pl := toLowerStr path
  systemPathPrefixesWindows.any (fun p => startsWithStr pl (toLowerStr p))
    || systemPathPrefixesUnix.any (fun p => startsWithStr pl (toLowerStr p))

/-- `BoundaryAnalyzer::analyze_directory`: classify one directory from its
path and its direct children within the scanned listing. -/
def analyzeDirectory (path : Path) (allFiles : List FileDescriptor) :
    DirectoryType × Bool :=
  if isSystemPath (pathToString path) then (.System, true)
  else
    let children := allFiles.filter (fun f => f.parentDir == path)
    let dirName := (path.getLast?.getD "")
    if venvDirNames.contains (toLowerStr dirName) then (.VirtualEnv, true)
    else
      let hasProgramMarkers := children.any (fun f =>
        programExtensions.contains (toLowerStr f.extension)
          || programMarkers.contains (toLowerStr f.name))
      let hasExe := children.any (fun f => toLowerStr f.extension == ".exe")
      let hasDll := children.any (fun f => toLowerStr f.extension == ".dll")
      if hasExe && hasDll then (.ProgramRoot, true)
      else
        let hasDevMarkers := children.any (fun f =>
          devProjectMarkers.contains (toLowerStr f.name)
            || devProjectMarkers.any (fun m => endsWithStr f.name m))
        let hasVenvChild := children.any (fun f =>
          f.isDirectory && venvDirNames.contains (toLowerStr f.name))
        if hasDevMarkers && (hasVenvChild || hasProgramMarkers) then
          (.ProgramRoot, true)
        else
          let hasBin := children.any (fun f =>
            f.isDirectory && toLowerStr f.name == "bin")
          let hasLib := children.any (fun f =>
            f.isDirectory && toLowerStr f.name == "lib")
          if hasBin && hasLib then (.ProgramRoot, true)
          else (.Normal, false)

/-- The per-entry application of `analyze_directory`'s result (directory
entries only). -/
def classifyEntry (files : List FileDescriptor) (f : FileDescriptor) :
    FileDescriptor :=
  if f.isDirectory then
    let r := analyzeDirectory f.fullPath files
    { f with directoryType := r.1, atomic := r.2 }
  else f

/-- The propagation loop at the end of `BoundaryAnalyzer::analyze`: a
non-directory entry below any atomic directory becomes atomic with type
`ProgramRoot`. -/
def propagateEntry (atomicDirs : List Path) (f : FileDescriptor) :
    FileDescriptor :=
  if f.isDirectory then f
  else if atomicDirs.any (fun d => d.isPrefixOf f.fullPath) then
    { f with atomic := true, directoryType := .ProgramRoot }
  else f

/-- The paths of the atomic directories collected after the per-directory
pass. -/
def atomicDirsOf (classified : List FileDescriptor) : List Path :=
  (classified.filter (fun f => f.isDirectory && f.atomic)).map (·.fullPath)

/-- `BoundaryAnalyzer::analyze`: classify every directory entry, then mark
every non-directory entry below an atomic directory as atomic with type
`ProgramRoot`. -/
def analyze (files : List FileDescriptor) : List FileDescriptor :=
  let classified := files.map (classifyEntry files)
  classified.map (propagateEntry (atomicDirsOf classified))

/-! ### Rule engine (`core/rule_engine.rs` and the rule types of
`core/models.rs`) -/

/-- `RuleOrigin` from `core/models.rs`. -/
inductive RuleOrigin where
  | UserConfirmed
  | BuiltIn
deriving DecidableEq, Repr

/-- `RuleCondition` from `core/models.rs`. -/
structure RuleCondition where
  semanticTags : List String := []
  fileExtensions : List String := []
  filenameKeywords : List String := []
  directoryExcludes : List String := []
  minSize : Option Nat := none
  maxSize : Option Nat := none
deriving DecidableEq, Repr

/-- `RuleCondition::matches`. -/
def RuleCondition.matches (c : RuleCondition) (file : FileDescriptor) : Bool :=
  (c.fileExtensions.isEmpty
      || c.fileExtensions.any (fun e => toLowerStr e == toLowerStr file.extension))
    && (c.filenameKeywords.isEmpty
      || c.filenameKeywords.any (fun k => strContainsSub (toLowerStr file.name) (toLowerStr k)))
    && (c.semanticTags.isEmpty
      || match file.semantic with
         | some sem => c.semanticTags.any (fun t =>
             sem.tags.any (fun st => toLowerStr st == toLowerStr t))
         | none => false)
    && !(c.directoryExcludes.any (fun d =>
          strContainsSub (toLowerStr (pathToString file.fullPath)) (toLowerStr d)))
    && (match c.minSize with
        | some m => decide (m ≤ file.size)
        | none => true)
    && (match c.maxSize with
        | some m => decide (file.size ≤ m)
        | none => true)

/-- `RuleAction` from `core/models.rs`. -/
structure RuleAction where
  moveTo : String := ""
deriving DecidableEq, Repr

/-- Year rendered as chrono's `%Y` (zero-padded to four digits). -/
def yearString (y : Nat) : String :=
  let s := toString y
  if s.length < 4 then String.mk (List.replicate (4 - s.length) '0') ++ s else s

/-- Month rendered as chrono's `%m` (zero-padded to two digits). -/
def monthString (m : Nat) : String :=
  if m < 10 then "0" ++ toString m else toString m

/-- `RuleAction::render_path`: substitute `{year}` (semantic year first,
else the modification year), `{extension}` (leading dots stripped) and
`{month}`, then join onto the output base. -/
def RuleAction.renderPath (a : RuleAction) (file : FileDescriptor)
    (basePath : Path) : Path :=
  let p := a.moveTo
  let p := match file.semantic with
    | some sem => match sem.year with
      | some y => replaceStr p "{year}" (toString y)
      | none => p
    | none => p
  let p := if strContainsSub p "{year}" then
      replaceStr p "{year}" (yearString file.modifiedYear) else p
  let ext := String.mk (file.extension.toList.dropWhile (· == '.'))
  let p := replaceStr p "{extension}" ext
  let p := replaceStr p "{month}" (monthString file.modifiedMonth)
  basePath ++ splitSlash p

/-- `RuleDefinition` from `core/models.rs` (timestamps as ticks). -/
structure RuleDefinition where
  id : String
  name : String
  priority : Nat
  enabled : Bool
  condition : RuleCondition
  action : RuleAction
  origin : RuleOrigin
  createdAt : Nat
  updatedAt : Nat
  hitCount : Nat
deriving DecidableEq, Repr

/-- One step of a stable descending-priority sort: place `r` after every
rule of priority `≥ r.priority`. -/
def insertByPriority (r : RuleDefinition) :
    List RuleDefinition → List RuleDefinition
  | [] => [r]
  | x :: xs =>
    if x.priority < r.priority then r :: x :: xs
    else x :: insertByPriority r xs

/-- `RuleEngine::sort_rules`: `Vec::sort_by(|a, b| b.priority.cmp(&a.priority))`
is a stable sort into descending priority order; it is modelled by the
stable insertion sort built from `insertByPriority`. -/
def sortRules (rules : List RuleDefinition) : List RuleDefinition :=
  rules.foldl (fun acc r => insertByPriority r acc) []

/-- `RuleEngine` from `core/rule_engine.rs`. -/
structure RuleEngine where
  rules : List RuleDefinition
  outputBase : Path
deriving DecidableEq

/-- The six rules installed by `RuleEngine::load_builtin_rules`
(construction timestamps as tick 0). -/
def builtinRules : List RuleDefinition :=
  [⟨"builtin_images", "图片文件", 30, true,
     { fileExtensions := [".jpg", ".jpeg", ".png", ".gif", ".bmp", ".webp",
        ".svg", ".ico", ".heic", ".heif"] },
     ⟨"Pictures/{year}/{month}"⟩, .BuiltIn, 0, 0, 0⟩,
   ⟨"builtin_videos", "视频文件", 30, true,
     { fileExtensions := [".mp4", ".avi", ".mkv", ".mov", ".wmv", ".flv",
        ".webm", ".m4v"] },
     ⟨"Videos/{year}"⟩, .BuiltIn, 0, 0, 0⟩,
   ⟨"builtin_audio", "音频文件", 30, true,
     { fileExtensions := [".mp3", ".wav", ".flac", ".aac", ".ogg", ".wma",
        ".m4a"] },
     ⟨"Music/{year}"⟩, .BuiltIn, 0, 0, 0⟩,
   ⟨"builtin_documents", "文档文件", 30, true,
     { fileExtensions := [".doc", ".docx", ".xls", ".xlsx", ".ppt", ".pptx",
        ".pdf", ".txt", ".md", ".rtf", ".odt", ".ods", ".odp"] },
     ⟨"Documents/{year}"⟩, .BuiltIn, 0, 0, 0⟩,
   ⟨"builtin_archives", "压缩文件", 30, true,
     { fileExtensions := [".zip", ".rar", ".7z", ".tar", ".gz", ".bz2",
        ".xz"] },
     ⟨"Archives/{year}"⟩, .BuiltIn, 0, 0, 0⟩,
   ⟨"builtin_invoice", "发票/账单", 60, true,
     { filenameKeywords := ["发票", "invoice", "账单", "bill", "收据",
        "receipt"],
       fileExtensions := [".pdf", ".jpg", ".png"] },
     ⟨"Finance/Invoice/{year}"⟩, .BuiltIn, 0, 0, 0⟩]

/-- `RuleEngine::new`: start from the built-in rules, sorted. -/
def RuleEngine.new (outputBase : Path) : RuleEngine :=
  ⟨sortRules builtinRules, outputBase⟩

/-- `RuleEngine::add_rule`. -/
def RuleEngine.addRule (e : RuleEngine) (r : RuleDefinition) : RuleEngine :=
  { e with rules := sortRules (e.rules ++ [r]) }

/-- `RuleEngine::remove_rule`: remove the first rule with the given id,
returning whether one was found. -/
def RuleEngine.removeRule (e : RuleEngine) (ruleId : String) :
    RuleEngine × Bool :=
  match position? (fun r => r.id == ruleId) e.rules with
  | some i => ({ e with rules := e.rules.eraseIdx i }, true)
  | none => (e, false)

/-- The suggestion `RuleEngine::match_file` builds from a satisfied rule. -/
def ruleSuggestion (r : RuleDefinition) (file : FileDescriptor)
    (base : Path) : MoveSuggestion :=
  ⟨r.action.renderPath file base, "匹配规则: " ++ r.name, .Rule, mkRat 9 10⟩

/-- The rule-scanning loop of `RuleEngine::match_file`: skip disabled
rules, stop at the first whose condition is satisfied, bump its hit
counter and stamp its update time. -/
def matchRules (base : Path) (file : FileDescriptor) (now : Nat) :
    List RuleDefinition → List RuleDefinition × Option MoveSuggestion
  | [] => ([], none)
  | r :: rs =>
    if r.enabled && r.condition.matches file then
      ({ r with hitCount := r.hitCount + 1, updatedAt := now } :: rs,
       some (ruleSuggestion r file base))
    else
      let t := matchRules base file now rs
      (r :: t.1, t.2)

/-- `RuleEngine::match_file`: atomic entries and directories never match. -/
def RuleEngine.matchFile (e : RuleEngine) (file : FileDescriptor)
    (now : Nat) : RuleEngine × Option MoveSuggestion :=
  if file.atomic then (e, none)
  else if file.isDirectory then (e, none)
  else
    let t := matchRules e.outputBase file now e.rules
    ({ e with rules := t.1 }, t.2)

/-! ### Planner (`core/planner.rs`) -/

/-- The filtering and destination-resolution loop of
`Planner::generate_plan`; the generated batch id and creation time are
supplied by the caller in the model. -/
def generateOperations (outputThreshold : ℚ) (files : List FileDescriptor) :
    List MoveOperation :=
  match files with
  | [] => []
  | file :: rest =>
    let tail := generateOperations outputThreshold rest
    if !file.selected then tail
    else match file.suggestedAction with
      | none => tail
      | some suggestion =>
        if file.atomic && !file.isDirectory then tail
        else if suggestion.confidence < outputThreshold then tail
        else
          let target := suggestion.targetPath
          let targetLeaf := target.getLast?.getD ""
          let looksLikeFullFilePath :=
            targetLeaf == file.name || containsChar targetLeaf '.'
          let target :=
            if !looksLikeFullFilePath then target ++ [file.name] else target
          ⟨file.fullPath, target, file.id, .Pending, none⟩ :: tail

/-- `Planner::generate_plan`. -/
def generatePlan (confidenceThreshold : ℚ) (files : List FileDescriptor)
    (batchId : String) (now : Nat) : MovePlan :=
  ⟨batchId, now, generateOperations confidenceThreshold files⟩

/-- `Planner::fuse_suggestions`. -/
def fuseSuggestions (rule ai : Option MoveSuggestion) : Option MoveSuggestion :=
  match rule, ai with
  | some r, some a =>
    let ruleScore := r.confidence * mkRat 6 10
    let aiScore := a.confidence * mkRat 4 10
    let fusedConfidence := ruleScore + aiScore
    if r.targetPath = a.targetPath then
      some ⟨r.targetPath, "规则+AI一致: " ++ r.reason ++ " | " ++ a.reason,
        .Rule, min (fusedConfidence * mkRat 11 10) 1⟩
    else if aiScore ≤ ruleScore then
      some ⟨r.targetPath, "规则优先: " ++ r.reason, .Rule, fusedConfidence⟩
    else
      some ⟨a.targetPath, "AI建议: " ++ a.reason, .AI, fusedConfidence⟩
  | some r, none => some r
  | none, some a => some a
  | none, none => none

/-! ### UI-mediated rule deletion (`ui/rule_panel.rs`, `ui/app.rs`)

The rule panel offers the delete button only for a selected rule whose
origin is `UserConfirmed` (`rule_panel.rs`, the `🗑️ 删除` branch), and the
app handles the resulting `Delete(id)` action by calling
`RuleEngine::remove_rule` (`app.rs`). -/

/-- The delete action the rule panel can emit for a selected rule. -/
def rulePanelDeleteAction (rules : List RuleDefinition)
    (selectedId : String) : Option String :=
  match rules.find? (fun r => r.id == selectedId) with
  | some r => if r.origin = .UserConfirmed then some selectedId else none
  | none => none

/-- Deletion as driven from the UI: the panel's action, then
`remove_rule`. -/
def uiDeleteRule (e : RuleEngine) (selectedId : String) : RuleEngine :=
  match rulePanelDeleteAction e.rules selectedId with
  | some ruleId => (e.removeRule ruleId).1
  | none => e

/-! ### Projections used to reason about the executor's loops -/

/-- The filesystem effect of one iteration of the rollback loop. -/
def rbStepFs (fs : Finset Path) (pr : Path × Path) : Finset Path :=
  match rollbackOperationStatic fs pr.1 pr.2 with
  | .ok fs2 => fs2
  | .error _ => fs

/-- The filesystem component of the rollback loop over a list of
`(source, destination)` pairs. -/
def rollbackFsOnly (fs : Finset Path) (l : List (Path × Path)) : Finset Path :=
  l.foldl rbStepFs fs

/-- The `(source, destination)` pair of an operation. -/
def opPair (op : MoveOperation) : Path × Path := (op.fromPath, op.toPath)

/-! ### Concrete instances the theorems are evaluated on -/

/-- A move `a → b`. -/
def opAB : MoveOperation := ⟨["a"], ["b"], "f1", .Pending, none⟩

/-- A move `c → a`, whose destination is `opAB`'s source. -/
def opCA : MoveOperation := ⟨["c"], ["a"], "f2", .Pending, none⟩

/-- A filesystem holding `a` and `c`, with an empty history. -/
def st0 : ExecutorState := ⟨{["a"], ["c"]}, []⟩

/-- The batch `[a → b, c → a]`. -/
def plan0 : MovePlan := ⟨"B", 0, [opAB, opCA]⟩

/-- A single move with all paths distinct from each other. -/
def opW : MoveOperation := ⟨["w", "src"], ["w", "dst"], "fw", .Pending, none⟩

/-- A filesystem holding only `opW`'s source. -/
def stW : ExecutorState := ⟨{["w", "src"]}, []⟩

/-- The one-operation batch around `opW`. -/
def planW : MovePlan := ⟨"W", 0, [opW]⟩

/-- A state whose one history entry `R` has a completed operation and has
not yet been rolled back. -/
def stR : ExecutorState :=
  ⟨{["x", "to"]}, [⟨"R", 0, [⟨["x", "from"], ["x", "to"], "fx", .Completed, none⟩], false⟩]⟩

/-- A state whose one history entry `F` records a completed operation whose
moved-to location no longer exists. -/
def stF : ExecutorState :=
  ⟨∅, [⟨"F", 0, [⟨["p"], ["q"], "f", .Completed, none⟩], false⟩]⟩

/-- The `keepname.pdf` file of the planner filename scenario, carrying an
external suggestion whose target erroneously includes the filename
`renamed.pdf`. -/
def keepFile : FileDescriptor :=
  ⟨"id1", "keepname.pdf", ".pdf", ["in", "keepname.pdf"], ["in"], 9, 2024, 6,
   false, .Normal, false, none,
   some ⟨["out", "Documents", "2024", "renamed.pdf"], "simulated", .AI, 1⟩, true⟩

/-- The `发票_2023.pdf` file of the rule-priority scenario. -/
def invoiceFile : FileDescriptor :=
  ⟨"id2", "发票_2023.pdf", ".pdf", ["in", "发票_2023.pdf"], ["in"], 9, 2023, 7,
   false, .Normal, false, none, none, true⟩

/-- A directory `r/app` (classification signals live in its children). -/
def dApp : FileDescriptor :=
  ⟨"d0", "app", "", ["r", "app"], ["r"], 0, 2024, 1, true, .Normal, false,
   none, none, true⟩

/-- An executable file directly inside `r/app`. -/
def fExe : FileDescriptor :=
  ⟨"f1", "a.exe", ".exe", ["r", "app", "a.exe"], ["r", "app"], 1, 2024, 1,
   false, .Normal, false, none, none, true⟩

/-- A shared library directly inside `r/app`. -/
def fDll : FileDescriptor :=
  ⟨"f2", "b.dll", ".dll", ["r", "app", "b.dll"], ["r", "app"], 1, 2024, 1,
   false, .Normal, false, none, none, true⟩

/-- A plain subdirectory `r/app/sub` of the atomic directory `r/app`. -/
def dSub : FileDescriptor :=
  ⟨"d1", "sub", "", ["r", "app", "sub"], ["r", "app"], 0, 2024, 1, true,
   .Normal, false, none, none, true⟩

/-- The listing around `r/app`. -/
def appListing : List FileDescriptor := [dApp, fExe, fDll, dSub]

/-- A directory whose own name `bin` is a virtual-environment name. -/
def dBin : FileDescriptor :=
  ⟨"d2", "bin", "", ["r", "bin"], ["r"], 0, 2024, 1, true, .Normal, false,
   none, none, true⟩

/-- An executable file directly inside `r/bin`. -/
def fExe2 : FileDescriptor :=
  ⟨"f3", "a.exe", ".exe", ["r", "bin", "a.exe"], ["r", "bin"], 1, 2024, 1,
   false, .Normal, false, none, none, true⟩

/-- A shared library directly inside `r/bin`. -/
def fDll2 : FileDescriptor :=
  ⟨"f4", "b.dll", ".dll", ["r", "bin", "b.dll"], ["r", "bin"], 1, 2024, 1,
   false, .Normal, false, none, none, true⟩

/-- The listing around `r/bin`. -/
def binListing : List FileDescriptor := [dBin, fExe2, fDll2]

/-- A rule-engine suggestion used to exercise suggestion fusion. -/
def sugR : MoveSuggestion := ⟨["r"], "rule", .Rule, 1⟩

/-- An AI suggestion with a target differing from `sugR`'s. -/
def sugA : MoveSuggestion := ⟨["a"], "ai", .AI, 1⟩

/-- A user-confirmed rule sitting next to the built-in rules. -/
def userRule : RuleDefinition :=
  ⟨"user_rule_1", "user rule", 50, true, {}, ⟨"Custom"⟩, .UserConfirmed, 0, 0, 0⟩

/-- An engine holding the built-in rules and one user rule. -/
def engine9 : RuleEngine := ⟨sortRules (builtinRules ++ [userRule]), ["out"]⟩

/-- `dApp` as `analyze` leaves it (classified `ProgramRoot`, atomic). -/
def dAppOut : FileDescriptor :=
  { dApp with directoryType := .ProgramRoot, atomic := true }

/-- `fExe` as `analyze` leaves it (propagation below `r/app`). -/
def fExeOut : FileDescriptor :=
  { fExe with directoryType := .ProgramRoot, atomic := true }

/-! ## Helper lemmas -/

theorem position?_some_spec (p : α → Bool) :
    ∀ (l : List α) (i : Nat), position? p l = some i →
      ∃ a, l[i]? = some a ∧ p a = true := by
  intro l
  induction l with
  | nil => intro i h; simp [position?] at h
  | cons a l ih =>
    intro i h
    by_cases hp : p a
    · simp [position?, hp] at h
      exact ⟨a, by simp [← h], hp⟩
    · simp [position?, hp] at h
      obtain ⟨j, hj, hij⟩ := h
      obtain ⟨b, hb, hpb⟩ := ih j hj
      exact ⟨b, by simpa [← hij] using hb, hpb⟩

theorem getElem?_set_self' (v : α) :
    ∀ (l : List α) (i : Nat), i < l.length → (l.set i v)[i]? = some v := by
  intro l
  induction l with
  | nil => intro i h; simp at h
  | cons a l ih =>
    intro i h
    cases i with
    | zero => simp
    | succ j =>
      simp only [List.set_cons_succ, List.getElem?_cons_succ]
      exact ih j (by simpa using h)

theorem mem_of_getElem?' : ∀ (l : List α) (i : Nat) (a : α),
    l[i]? = some a → a ∈ l := by
  intro l
  induction l with
  | nil => intro i a h; simp at h
  | cons b l ih =>
    intro i a h
    cases i with
    | zero => simp at h; simp [h]
    | succ j => exact List.mem_cons_of_mem _ (ih j a (by simpa using h))

/-! ## C4: execute marks failures, continues, and appends one history
entry -/

theorem executeOps_spec : ∀ (ops : List MoveOperation) (fs : Finset Path),
    ((executeOps fs ops).2.1).length = ops.length
    ∧ (∀ op ∈ (executeOps fs ops).2.1,
        op.status = OperationStatus.Completed
          ∨ (op.status = OperationStatus.Failed ∧ op.error.isSome = true))
    ∧ (executeOps fs ops).2.2.successful + (executeOps fs ops).2.2.failed
        = ops.length := by
  intro ops
  induction ops with
  | nil => intro fs; refine ⟨rfl, ?_, rfl⟩; intro op h; simp [executeOps] at h
  | cons op ops ih =>
    intro fs
    cases h : executeSingleOperation fs op with
    | ok fs' =>
      obtain ⟨h1, h2, h3⟩ := ih fs'
      refine ⟨by simp [executeOps, h, h1], ?_, by simp [executeOps, h]; omega⟩
      intro o ho
      have ho' : o = { op with status := OperationStatus.Completed }
          ∨ o ∈ (executeOps fs' ops).2.1 := by
        simpa [executeOps, h] using ho
      rcases ho' with ho' | ho'
      · left; simp [ho']
      · exact h2 o ho'
    | error e =>
      obtain ⟨h1, h2, h3⟩ := ih fs
      refine ⟨by simp [executeOps, h, h1], ?_, by simp [executeOps, h]; omega⟩
      intro o ho
      have ho' : o = { op with status := OperationStatus.Failed, error := some e }
          ∨ o ∈ (executeOps fs ops).2.1 := by
        simpa [executeOps, h] using ho
      rcases ho' with ho' | ho'
      · right; simp [ho']
      · exact h2 o ho'

/-- C4: for every plan, `execute` marks each failing operation `Failed`
with its error text recorded and continues to the next operation, every
operation ends `Completed` or `Failed`, the success and failure counts
sum to the number of operations, and exactly one history entry — batch
id, timestamp, the full operation snapshot, `rolled_back = false` — is
appended, even when some or all operations failed. -/
theorem execute_continues_and_appends_history (st : ExecutorState)
    (plan : MovePlan) (now : Nat) :
    (Executor.execute st plan now).1.history
        = st.history
          ++ [⟨plan.batchId, now,
               ((Executor.execute st plan now).2.1).operations, false⟩]
    ∧ ((Executor.execute st plan now).2.1).operations.length
        = plan.operations.length
    ∧ (∀ op ∈ ((Executor.execute st plan now).2.1).operations,
        op.status = OperationStatus.Completed
          ∨ (op.status = OperationStatus.Failed ∧ op.error.isSome = true))
    ∧ (Executor.execute st plan now).2.2.successful
        + (Executor.execute st plan now).2.2.failed
        = plan.operations.length := by
  obtain ⟨h1, h2, h3⟩ := executeOps_spec plan.operations st.fs
  exact ⟨rfl, h1, h2, h3⟩

/-! ## C5: rollback of an absent or already-rolled-back batch is rejected
without side effects -/

/-- C5: if no history entry carries the requested batch id, or every one
that does (in particular the first, which `rollback` locates) is already
rolled back, then `rollback` returns an error result and leaves the
state — history and filesystem — unchanged; a second rollback of the
same batch is therefore rejected. -/
theorem rollback_rejects_missing_or_rolled_back (st : ExecutorState)
    (batchId : String)
    (h : ∀ e ∈ st.history, e.batchId = batchId → e.rolledBack = true) :
    (Executor.rollback st batchId).1 = st
    ∧ (Executor.rollback st batchId).2.successful = 0
    ∧ (Executor.rollback st batchId).2.failed = 0
    ∧ (Executor.rollback st batchId).2.errors ≠ [] := by
  cases hpos : position? (fun e => e.batchId == batchId) st.history with
  | none => simp [Executor.rollback, hpos]
  | some i =>
    obtain ⟨e, hget, hpred⟩ := position?_some_spec _ _ _ hpos
    have hmem : e ∈ st.history := mem_of_getElem?' _ _ _ hget
    have hid : e.batchId = batchId := by simpa using hpred
    have hrb : e.rolledBack = true := h e hmem hid
    simp [Executor.rollback, hpos, hget, hrb]

/-- Witness for C5: after a successful rollback of batch `R`, a second
call with the same batch id is rejected and leaves the state unchanged. -/
theorem rollback_rejects_missing_or_rolled_back_witness :
    (∀ e ∈ (Executor.rollback stR "R").1.history,
        e.batchId = "R" → e.rolledBack = true)
    ∧ ((Executor.rollback (Executor.rollback stR "R").1 "R").1
          = (Executor.rollback stR "R").1
        ∧ (Executor.rollback (Executor.rollback stR "R").1 "R").2.successful = 0
        ∧ (Executor.rollback (Executor.rollback stR "R").1 "R").2.failed = 0
        ∧ (Executor.rollback (Executor.rollback stR "R").1 "R").2.errors ≠ []) :=
  ⟨by decide,
   rollback_rejects_missing_or_rolled_back (Executor.rollback stR "R").1 "R"
     (by decide)⟩

/-! ## C10: rollback flips the rolled-back flag even when per-operation
rollbacks failed -/

/-- C10: when `rollback` finds the batch and it is not yet rolled back, it
marks the entry `rolled_back = true` after its single pass regardless of
how many per-operation rollbacks failed, so failed operations cannot be
retried through `rollback`. -/
theorem rollback_flags_batch_rolled_back (st : ExecutorState)
    (batchId : String) (i : Nat) (entry : HistoryEntry)
    (hpos : position? (fun e => e.batchId == batchId) st.history = some i)
    (hget : st.history[i]? = some entry)
    (hrb : entry.rolledBack = false) :
    ∃ e', ((Executor.rollback st batchId).1.history)[i]? = some e'
      ∧ e'.rolledBack = true := by
  have hlt : i < st.history.length := by
    by_contra hge
    rw [List.getElem?_eq_none (by omega)] at hget
    exact Option.noConfusion hget
  simp only [Executor.rollback, hpos, hget, hrb, Bool.false_eq_true,
    if_false]
  exact ⟨_, getElem?_set_self' _ _ _ (by simpa using hlt), rfl⟩

/-- Witness for C10: batch `F`'s only completed operation cannot be rolled
back (its moved-to location is gone), yet the entry ends up flagged
`rolled_back = true` (and the failure is counted). -/
theorem rollback_flags_batch_rolled_back_witness :
    (∃ e', ((Executor.rollback stF "F").1.history)[0]? = some e'
        ∧ e'.rolledBack = true)
    ∧ (Executor.rollback stF "F").2.failed = 1 :=
  ⟨rollback_flags_batch_rolled_back stF "F" 0
      ⟨"F", 0, [⟨["p"], ["q"], "f", .Completed, none⟩], false⟩
      (by decide) (by decide) (by decide),
   by decide⟩

/-! ## C7: fusion of suggestions with differing targets -/

/-- C7: when a rule suggestion and an AI suggestion disagree on the
target, `fuse_suggestions` returns the suggestion whose weighted score
(`0.6·rule` vs `0.4·ai`) is higher, the rule suggestion winning ties,
and the returned confidence is the weighted sum `0.6·rule + 0.4·ai`
regardless of which target was chosen. -/
theorem fuse_differing_targets_weighted_choice (r a : MoveSuggestion)
    (h : r.targetPath ≠ a.targetPath) :
    ∃ s, fuseSuggestions (some r) (some a) = some s
      ∧ s.confidence = r.confidence * mkRat 6 10 + a.confidence * mkRat 4 10
      ∧ (a.confidence * mkRat 4 10 ≤ r.confidence * mkRat 6 10 →
          s.targetPath = r.targetPath ∧ s.source = SuggestionSource.Rule)
      ∧ (r.confidence * mkRat 6 10 < a.confidence * mkRat 4 10 →
          s.targetPath = a.targetPath ∧ s.source = SuggestionSource.AI) := by
  by_cases hle : a.confidence * mkRat 4 10 ≤ r.confidence * mkRat 6 10
  · exact ⟨⟨r.targetPath, "规则优先: " ++ r.reason, .Rule,
        r.confidence * mkRat 6 10 + a.confidence * mkRat 4 10⟩,
      by simp [fuseSuggestions, h, hle], rfl, fun _ => ⟨rfl, rfl⟩,
      fun hlt => absurd hle (not_le.mpr hlt)⟩
  · exact ⟨⟨a.targetPath, "AI建议: " ++ a.reason, .AI,
        r.confidence * mkRat 6 10 + a.confidence * mkRat 4 10⟩,
      by simp [fuseSuggestions, h, hle], rfl, fun hle' => absurd hle' hle,
      fun _ => ⟨rfl, rfl⟩⟩

/-- Witness for C7: two full-confidence suggestions with differing
targets; the rule's weighted score 0.6 beats the AI's 0.4. -/
theorem fuse_differing_targets_weighted_choice_witness :
    sugR.targetPath ≠ sugA.targetPath
    ∧ (∃ s, fuseSuggestions (some sugR) (some sugA) = some s
        ∧ s.confidence
            = sugR.confidence * mkRat 6 10 + sugA.confidence * mkRat 4 10
        ∧ (sugA.confidence * mkRat 4 10 ≤ sugR.confidence * mkRat 6 10 →
            s.targetPath = sugR.targetPath ∧ s.source = SuggestionSource.Rule)
        ∧ (sugR.confidence * mkRat 6 10 < sugA.confidence * mkRat 4 10 →
            s.targetPath = sugA.targetPath ∧ s.source = SuggestionSource.AI)) :=
  ⟨by decide, fuse_differing_targets_weighted_choice sugR sugA (by decide)⟩

/-! ## C2: the planner's filename heuristic -/

/-- C2 (failing input): for the source file `keepname.pdf` with an
external suggestion targeting `out/Documents/2024/renamed.pdf`, the
planner keeps `renamed.pdf` — the suggestion's leaf contains a dot, so
`generate_plan` treats the target as a full file path and does not
rewrite it to `keepname.pdf`.  This contradicts the repository's own
test `sim_planner_ignores_suggestion_filename_part`, which asserts the
destination `out/Documents/2024/keepname.pdf`. -/
theorem planner_filename_heuristic_bug :
    keepFile.name = "keepname.pdf"
    ∧ (generateOperations 0 [keepFile]).map (fun op => op.toPath)
        = [["out", "Documents", "2024", "renamed.pdf"]]
    ∧ (generateOperations 0 [keepFile]).map (fun op => op.toPath)
        ≠ [["out", "Documents", "2024", "keepname.pdf"]] := by
  decide

/-! ## C9: deletion of rules and the built-in set -/

/-- Counterexample for C9: `RuleEngine::remove_rule` itself checks only
the id — it deletes the built-in rule `builtin_images`, whose origin is
`BuiltIn`, from a freshly constructed engine. -/
theorem remove_rule_deletes_builtin_counterexample :
    (∃ r ∈ (RuleEngine.new ["out"]).rules,
        r.id = "builtin_images" ∧ r.origin = RuleOrigin.BuiltIn)
    ∧ (∀ r ∈ ((RuleEngine.new ["out"]).removeRule "builtin_images").1.rules,
        r.id ≠ "builtin_images")
    ∧ ((RuleEngine.new ["out"]).removeRule "builtin_images").2 = true := by
  decide

theorem position?_eq_find? (p : α → Bool) :
    ∀ (l : List α) (i : Nat), position? p l = some i → l[i]? = l.find? p := by
  intro l
  induction l with
  | nil => intro i h; simp [position?] at h
  | cons a l ih =>
    intro i h
    by_cases hp : p a
    · simp [position?, hp] at h
      simp [← h, List.find?_cons_of_pos _ hp]
    · simp [position?, hp] at h
      obtain ⟨j, hj, hij⟩ := h
      rw [← hij]
      simp [List.find?_cons_of_neg _ hp, ih j hj]

theorem mem_eraseIdx_of_ne :
    ∀ (l : List α) (i : Nat) (a r : α), l[i]? = some a → r ∈ l → r ≠ a →
      r ∈ l.eraseIdx i := by
  intro l
  induction l with
  | nil => intro i a r h; simp at h
  | cons x xs ih =>
    intro i a r hget hmem hne
    cases i with
    | zero =>
      simp at hget
      rcases List.mem_cons.mp hmem with hx | hx
      · exact absurd (hx.trans hget) hne
      · simpa [List.eraseIdx] using hx
    | succ j =>
      simp only [List.getElem?_cons_succ] at hget
      rcases List.mem_cons.mp hmem with hx | hx
      · simp [List.eraseIdx, hx]
      · simpa [List.eraseIdx] using Or.inr (ih j a r hget hx hne)

/-- C9 (amended): `remove_rule` deletes by id regardless of origin; the
guard protecting built-in rules lives in the UI, whose rule panel offers
the delete action only for a `UserConfirmed` rule.  Deletion driven
through the panel therefore preserves every `BuiltIn` rule. -/
theorem ui_delete_preserves_builtin_rules (e : RuleEngine)
    (selectedId : String) (r : RuleDefinition) (hmem : r ∈ e.rules)
    (horigin : r.origin = RuleOrigin.BuiltIn) :
    r ∈ (uiDeleteRule e selectedId).rules := by
  cases hact : rulePanelDeleteAction e.rules selectedId with
  | none => simpa [uiDeleteRule, hact] using hmem
  | some ruleId =>
    cases hfind : e.rules.find? (fun x => x.id == selectedId) with
    | none => simp [rulePanelDeleteAction, hfind] at hact
    | some r' =>
      by_cases huser : r'.origin = RuleOrigin.UserConfirmed
      · have hid : selectedId = ruleId := by
          simpa [rulePanelDeleteAction, hfind, huser] using hact
        subst hid
        cases hpos : position? (fun x => x.id == selectedId) e.rules with
        | none =>
          simpa [uiDeleteRule, hact, RuleEngine.removeRule, hpos] using hmem
        | some i =>
          have hgeteq := position?_eq_find? _ e.rules i hpos
          rw [hfind] at hgeteq
          have hne : r ≠ r' := by
            intro hrr
            rw [hrr, huser] at horigin
            exact RuleOrigin.noConfusion horigin
          simpa [uiDeleteRule, hact, RuleEngine.removeRule, hpos] using
            mem_eraseIdx_of_ne e.rules i r' r hgeteq hmem hne
      · simp [rulePanelDeleteAction, hfind, huser] at hact

/-- Witness for C9: deleting the user rule `user_rule_1` through the UI
leaves the built-in image rule in place. -/
theorem ui_delete_preserves_builtin_rules_witness :
    (builtinRules.get ⟨0, by decide⟩) ∈ engine9.rules
    ∧ (builtinRules.get ⟨0, by decide⟩).origin = RuleOrigin.BuiltIn
    ∧ (builtinRules.get ⟨0, by decide⟩)
        ∈ (uiDeleteRule engine9 "user_rule_1").rules :=
  ⟨by decide, by decide,
   ui_delete_preserves_builtin_rules engine9 "user_rule_1" _ (by decide)
     (by decide)⟩

/-! ## C8: directories with both an executable and a shared library -/

/-- Counterexample for C8: the directory `r/bin` has direct children
`a.exe` and `b.dll`, yet `analyze` classifies it `VirtualEnv` (its own
name `bin` is a virtual-environment name, checked before the exe+dll
signal), not `ProgramRoot`. -/
theorem exe_dll_program_root_counterexample :
    ((binListing.filter (fun f => f.parentDir == dBin.fullPath)).any
        (fun f => toLowerStr f.extension == ".exe") = true)
    ∧ ((binListing.filter (fun f => f.parentDir == dBin.fullPath)).any
        (fun f => toLowerStr f.extension == ".dll") = true)
    ∧ binListing[0]? = some dBin
    ∧ dBin.isDirectory = true
    ∧ ((analyze binListing).map (fun f => f.directoryType))[0]?
        = some DirectoryType.VirtualEnv
    ∧ ((analyze binListing).map (fun f => f.directoryType))[0]?
        ≠ some DirectoryType.ProgramRoot
    ∧ ((analyze binListing).map (fun f => f.atomic))[0]? = some true := by
  decide

/-- C8 (amended): a directory whose direct children include both an
`.exe` and a `.dll` file is classified `ProgramRoot` and atomic by
`analyze`, provided the two checks that precede the exe+dll signal do
not fire: its path is not under a system prefix and its own name is not
a virtual-environment name. -/
theorem exe_dll_directory_program_root (files : List FileDescriptor)
    (i : Nat) (fi : FileDescriptor) (hget : files[i]? = some fi)
    (hdir : fi.isDirectory = true)
    (hsys : isSystemPath (pathToString fi.fullPath) = false)
    (hvenv : venvDirNames.contains
        (toLowerStr (fi.fullPath.getLast?.getD "")) = false)
    (hexe : (files.filter (fun f => f.parentDir == fi.fullPath)).any
        (fun f => toLowerStr f.extension == ".exe") = true)
    (hdll : (files.filter (fun f => f.parentDir == fi.fullPath)).any
        (fun f => toLowerStr f.extension == ".dll") = true) :
    ((analyze files)[i]?.map (fun f => (f.directoryType, f.atomic)))
      = some (DirectoryType.ProgramRoot, true) := by
  have hvenv' : toLowerStr (fi.fullPath.getLast?.getD "") ∉ venvDirNames := by
    simpa using hvenv
  have hdirres : analyzeDirectory fi.fullPath files
      = (DirectoryType.ProgramRoot, true) := by
    simp [analyzeDirectory, hsys, hvenv', hexe, hdll]
  simp [analyze, List.getElem?_map, hget, classifyEntry, hdir, hdirres,
    propagateEntry]

/-- Witness for C8: `r/app` with children `a.exe` and `b.dll` is
classified `ProgramRoot`, atomic. -/
theorem exe_dll_directory_program_root_witness :
    appListing[0]? = some dApp
    ∧ dApp.isDirectory = true
    ∧ isSystemPath (pathToString dApp.fullPath) = false
    ∧ venvDirNames.contains
        (toLowerStr (dApp.fullPath.getLast?.getD "")) = false
    ∧ (appListing.filter (fun f => f.parentDir == dApp.fullPath)).any
        (fun f => toLowerStr f.extension == ".exe") = true
    ∧ (appListing.filter (fun f => f.parentDir == dApp.fullPath)).any
        (fun f => toLowerStr f.extension == ".dll") = true
    ∧ ((analyze appListing)[0]?.map (fun f => (f.directoryType, f.atomic)))
        = some (DirectoryType.ProgramRoot, true) :=
  ⟨by decide, rfl, by decide, by decide, by decide, by decide,
   exe_dll_directory_program_root appListing 0 dApp (by decide) rfl
     (by decide) (by decide) (by decide) (by decide)⟩

/-! ## C3: propagation of atomicity to descendants -/

/-- Counterexample for C3: after `analyze` on the `r/app` listing, the
subdirectory `r/app/sub` of the atomic directory `r/app` keeps
`atomic = false` and type `Normal` — the propagation loop only re-types
non-directory entries, so the claim fails for directory descendants. -/
theorem boundary_propagation_counterexample :
    ((analyze appListing).map (fun f => (f.isDirectory, f.atomic, f.directoryType)))
        = [(true, true, .ProgramRoot), (false, true, .ProgramRoot),
           (false, true, .ProgramRoot), (true, false, .Normal)]
    ∧ ((analyze appListing).map (fun f => f.fullPath))
        = [["r", "app"], ["r", "app", "a.exe"], ["r", "app", "b.dll"],
           ["r", "app", "sub"]]
    ∧ (["r", "app"] : Path).isPrefixOf ["r", "app", "sub"] = true := by
  decide

theorem propagateEntry_isDirectory (ad : List Path) (f : FileDescriptor) :
    (propagateEntry ad f).isDirectory = f.isDirectory := by
  unfold propagateEntry
  split_ifs <;> rfl

theorem propagateEntry_fullPath (ad : List Path) (f : FileDescriptor) :
    (propagateEntry ad f).fullPath = f.fullPath := by
  unfold propagateEntry
  split_ifs <;> rfl

theorem propagateEntry_dir (ad : List Path) (f : FileDescriptor)
    (h : f.isDirectory = true) : propagateEntry ad f = f := by
  simp [propagateEntry, h]

theorem propagateEntry_file_marked (ad : List Path) (f : FileDescriptor)
    (h : f.isDirectory = false)
    (hany : ad.any (fun d => d.isPrefixOf f.fullPath) = true) :
    propagateEntry ad f
      = { f with atomic := true, directoryType := .ProgramRoot } := by
  simp [propagateEntry, h, hany]

/-- C3 (amended): after `analyze`, every **non-directory** entry lying
below an atomic directory (by component-wise path prefix) is atomic with
type `ProgramRoot`, regardless of its own local signals; directory
descendants are not covered (see the counterexample). -/
theorem boundary_propagation_marks_files (files : List FileDescriptor)
    (i j : Nat) (fi fj : FileDescriptor)
    (hi : (analyze files)[i]? = some fi)
    (hj : (analyze files)[j]? = some fj)
    (hfile : fi.isDirectory = false)
    (hjdir : fj.isDirectory = true)
    (hjatomic : fj.atomic = true)
    (hbelow : fj.fullPath.isPrefixOf fi.fullPath = true) :
    fi.atomic = true ∧ fi.directoryType = DirectoryType.ProgramRoot := by
  have hana : analyze files
      = (files.map (classifyEntry files)).map
          (propagateEntry (atomicDirsOf (files.map (classifyEntry files)))) := rfl
  rw [hana, List.getElem?_map] at hi hj
  obtain ⟨ci, hci, hpei⟩ := Option.map_eq_some'.mp hi
  obtain ⟨cj, hcj, hpej⟩ := Option.map_eq_some'.mp hj
  have hcjdir : cj.isDirectory = true := by
    rw [← hpej, propagateEntry_isDirectory] at hjdir
    exact hjdir
  have hfj : fj = cj := by rw [← hpej, propagateEntry_dir _ _ hcjdir]
  have hcidir : ci.isDirectory = false := by
    rw [← hpei, propagateEntry_isDirectory] at hfile
    exact hfile
  have hcifp : fi.fullPath = ci.fullPath := by
    rw [← hpei, propagateEntry_fullPath]
  have hmemj : cj ∈ files.map (classifyEntry files) :=
    mem_of_getElem?' _ _ _ hcj
  have hADmem : cj.fullPath
      ∈ atomicDirsOf (files.map (classifyEntry files)) := by
    unfold atomicDirsOf
    exact List.mem_map_of_mem _
      (List.mem_filter.mpr ⟨hmemj, by
        rw [← hfj]
        simp [hjdir, hjatomic]⟩)
  have hany : (atomicDirsOf (files.map (classifyEntry files))).any
      (fun d => d.isPrefixOf ci.fullPath) = true :=
    List.any_eq_true.mpr ⟨cj.fullPath, hADmem, by
      rw [← hcifp, ← hfj]
      exact hbelow⟩
  have hfi : fi = { ci with atomic := true, directoryType := .ProgramRoot } := by
    rw [← hpei, propagateEntry_file_marked _ _ hcidir hany]
  rw [hfi]
  exact ⟨rfl, rfl⟩

/-- Witness for C3: the file `r/app/a.exe` below the atomic directory
`r/app` comes out atomic with type `ProgramRoot`. -/
theorem boundary_propagation_marks_files_witness :
    (analyze appListing)[1]? = some fExeOut
    ∧ (analyze appListing)[0]? = some dAppOut
    ∧ fExeOut.isDirectory = false
    ∧ dAppOut.isDirectory = true
    ∧ dAppOut.atomic = true
    ∧ dAppOut.fullPath.isPrefixOf fExeOut.fullPath = true
    ∧ (fExeOut.atomic = true
        ∧ fExeOut.directoryType = DirectoryType.ProgramRoot) :=
  ⟨by decide, by decide, rfl, rfl, rfl, by decide,
   boundary_propagation_marks_files appListing 1 0 fExeOut dAppOut
     (by decide) (by decide) rfl rfl rfl (by decide)⟩

/-! ## C6: rule matching order, priority sort, and hit counting -/

theorem mem_insertByPriority (r : RuleDefinition) :
    ∀ (l : List RuleDefinition) (a : RuleDefinition),
      a ∈ insertByPriority r l ↔ a = r ∨ a ∈ l := by
  intro l
  induction l with
  | nil => intro a; simp [insertByPriority]
  | cons x xs ih =>
    intro a
    unfold insertByPriority
    by_cases h : x.priority < r.priority
    · simp [h]
    · simp [h, ih]
      tauto

theorem pairwise_insertByPriority (r : RuleDefinition) :
    ∀ (l : List RuleDefinition),
      l.Pairwise (fun a b => b.priority ≤ a.priority) →
      (insertByPriority r l).Pairwise (fun a b => b.priority ≤ a.priority) := by
  intro l
  induction l with
  | nil => intro _; simp [insertByPriority]
  | cons x xs ih =>
    intro hl
    obtain ⟨hx, hxs⟩ := List.pairwise_cons.mp hl
    unfold insertByPriority
    by_cases h : x.priority < r.priority
    · simp only [if_pos h]
      refine List.pairwise_cons.mpr ⟨?_, hl⟩
      intro b hb
      rcases List.mem_cons.mp hb with rfl | hb
      · omega
      · have := hx b hb; omega
    · simp only [if_neg h]
      refine List.pairwise_cons.mpr ⟨?_, ih hxs⟩
      intro b hb
      rcases (mem_insertByPriority r xs b).mp hb with rfl | hb
      · omega
      · exact hx b hb

theorem sortRules_sorted_aux :
    ∀ (rs acc : List RuleDefinition),
      acc.Pairwise (fun a b => b.priority ≤ a.priority) →
      (rs.foldl (fun acc r => insertByPriority r acc) acc).Pairwise
        (fun a b => b.priority ≤ a.priority) := by
  intro rs
  induction rs with
  | nil => intro acc h; exact h
  | cons r rs ih =>
    intro acc h
    exact ih _ (pairwise_insertByPriority r acc h)

theorem filter_insertByPriority (r : RuleDefinition) (p : Nat) :
    ∀ (l : List RuleDefinition),
      l.Pairwise (fun a b => b.priority ≤ a.priority) →
      (insertByPriority r l).filter (fun y => y.priority == p)
        = l.filter (fun y => y.priority == p)
          ++ (if r.priority = p then [r] else []) := by
  intro l
  induction l with
  | nil =>
    intro _
    by_cases hrp : r.priority = p
    · simp [insertByPriority, List.filter, hrp]
    · have hb : (r.priority == p) = false := by simp [hrp]
      simp [insertByPriority, List.filter, hb, hrp]
  | cons x xs ih =>
    intro hl
    obtain ⟨hx, hxs⟩ := List.pairwise_cons.mp hl
    unfold insertByPriority
    by_cases h : x.priority < r.priority
    · simp only [if_pos h]
      by_cases hrp : r.priority = p
      · have hnil : (x :: xs).filter (fun y => y.priority == p) = [] := by
          rw [List.filter_eq_nil_iff]
          intro y hy
          have hylt : y.priority < p := by
            rcases List.mem_cons.mp hy with rfl | hy
            · omega
            · have := hx y hy; omega
          simp
          omega
        simp [List.filter_cons, hnil, hrp]
      · simp [List.filter_cons, hrp]
    · simp only [if_neg h]
      by_cases hxp : x.priority = p <;>
        simp [List.filter_cons, hxp, ih hxs]

theorem sortRules_stable_aux (p : Nat) :
    ∀ (rs acc : List RuleDefinition),
      acc.Pairwise (fun a b => b.priority ≤ a.priority) →
      (rs.foldl (fun acc r => insertByPriority r acc) acc).filter
          (fun y => y.priority == p)
        = acc.filter (fun y => y.priority == p)
          ++ rs.filter (fun y => y.priority == p) := by
  intro rs
  induction rs with
  | nil => intro acc _; simp
  | cons r rs ih =>
    intro acc hacc
    rw [List.foldl_cons, ih _ (pairwise_insertByPriority r acc hacc),
      filter_insertByPriority r p acc hacc]
    by_cases hrp : r.priority = p <;>
      simp [List.filter_cons, hrp]

theorem matchRules_snd (base : Path) (file : FileDescriptor) (now : Nat) :
    ∀ (rules : List RuleDefinition),
      (matchRules base file now rules).2
        = (rules.find? (fun r => r.enabled && r.condition.matches file)).map
            (fun r => ruleSuggestion r file base) := by
  intro rules
  induction rules with
  | nil => rfl
  | cons r rs ih =>
    by_cases h : (r.enabled && r.condition.matches file) = true
    · simp [matchRules, h, List.find?, ih]
    · simp [matchRules, h, List.find?, ih]

theorem matchRules_fst (base : Path) (file : FileDescriptor) (now : Nat) :
    ∀ (rules : List RuleDefinition) (i : Nat) (r0 : RuleDefinition),
      position? (fun r => r.enabled && r.condition.matches file) rules = some i →
      rules[i]? = some r0 →
      (matchRules base file now rules).1
        = rules.set i { r0 with hitCount := r0.hitCount + 1, updatedAt := now } := by
  intro rules
  induction rules with
  | nil => intro i r0 h; simp [position?] at h
  | cons r rs ih =>
    intro i r0 hpos hget
    by_cases h : (r.enabled && r.condition.matches file) = true
    · simp [position?, h] at hpos
      subst hpos
      simp at hget
      simp [matchRules, h, ← hget]
    · simp [position?, h] at hpos
      obtain ⟨j, hj, hji⟩ := hpos
      subst hji
      simp only [List.getElem?_cons_succ] at hget
      simp [matchRules, h, ih j r0 hj hget]

/-- C6: an engine whose rule list is the stable descending-priority sort
of its inserted rules (which `sort_rules` maintains) scans that list in
order — descending priority, ties in insertion order — skips disabled
rules, returns the suggestion rendered from the first enabled rule whose
condition is satisfied, and increments exactly that rule's hit counter
(stamping its update time). -/
theorem match_file_first_enabled_matching_rule (rs : List RuleDefinition)
    (base : Path) (file : FileDescriptor) (now : Nat)
    (hatomic : file.atomic = false) (hdir : file.isDirectory = false) :
    (sortRules rs).Pairwise (fun a b => b.priority ≤ a.priority)
    ∧ (∀ p : Nat, (sortRules rs).filter (fun r => r.priority == p)
        = rs.filter (fun r => r.priority == p))
    ∧ ((RuleEngine.mk (sortRules rs) base).matchFile file now).2
        = ((sortRules rs).find?
            (fun r => r.enabled && r.condition.matches file)).map
            (fun r => ruleSuggestion r file base)
    ∧ (∀ i r0,
        position? (fun r => r.enabled && r.condition.matches file)
            (sortRules rs) = some i →
        (sortRules rs)[i]? = some r0 →
        ((RuleEngine.mk (sortRules rs) base).matchFile file now).1.rules
          = (sortRules rs).set i
              { r0 with hitCount := r0.hitCount + 1, updatedAt := now }) := by
  refine ⟨sortRules_sorted_aux rs [] (by simp), ?_, ?_, ?_⟩
  · intro p
    simpa using sortRules_stable_aux p rs [] (by simp)
  · simp [RuleEngine.matchFile, hatomic, hdir, matchRules_snd]
  · intro i r0 hpos hget
    simp [RuleEngine.matchFile, hatomic, hdir,
      matchRules_fst base file now (sortRules rs) i r0 hpos hget]

/-- Witness for C6: `发票_2023.pdf` against the seeded built-in rules is
classified by the priority-60 invoice rule into the Finance target, not
the priority-30 document rule's target. -/
theorem match_file_first_enabled_matching_rule_witness :
    invoiceFile.atomic = false ∧ invoiceFile.isDirectory = false
    ∧ ((sortRules builtinRules).Pairwise (fun a b => b.priority ≤ a.priority)
      ∧ (∀ p : Nat, (sortRules builtinRules).filter (fun r => r.priority == p)
          = builtinRules.filter (fun r => r.priority == p))
      ∧ ((RuleEngine.mk (sortRules builtinRules) ["out"]).matchFile
            invoiceFile 5).2
          = ((sortRules builtinRules).find?
              (fun r => r.enabled && r.condition.matches invoiceFile)).map
              (fun r => ruleSuggestion r invoiceFile ["out"])
      ∧ (∀ i r0,
          position? (fun r => r.enabled && r.condition.matches invoiceFile)
              (sortRules builtinRules) = some i →
          (sortRules builtinRules)[i]? = some r0 →
          ((RuleEngine.mk (sortRules builtinRules) ["out"]).matchFile
              invoiceFile 5).1.rules
            = (sortRules builtinRules).set i
                { r0 with hitCount := r0.hitCount + 1, updatedAt := 5 }))
    ∧ ((RuleEngine.new ["out"]).matchFile invoiceFile 5).2
        = some ⟨["out", "Finance", "Invoice", "2023"],
            "匹配规则: 发票/账单", .Rule, mkRat 9 10⟩ :=
  ⟨rfl, rfl,
   match_file_first_enabled_matching_rule builtinRules ["out"] invoiceFile 5
     rfl rfl,
   by decide⟩

/-! ## C1: execute followed by rollback -/

theorem executeSingleOperation_ok (fs : Finset Path) (op : MoveOperation)
    (fs' : Finset Path) :
    executeSingleOperation fs op = .ok fs' ↔
      op.toPath ∉ fs ∧ op.fromPath ∈ fs
        ∧ fs' = insert op.toPath (fs.erase op.fromPath) := by
  unfold executeSingleOperation
  split_ifs with h1 h2 <;> simp_all
  exact ⟨Eq.symm, Eq.symm⟩

theorem executeOps_completed_cons (fs : Finset Path) (op : MoveOperation)
    (ops : List MoveOperation)
    (h : ∀ o ∈ (executeOps fs (op :: ops)).2.1,
        o.status = OperationStatus.Completed) :
    ∃ fs', executeSingleOperation fs op = .ok fs'
      ∧ ∀ o ∈ (executeOps fs' ops).2.1,
          o.status = OperationStatus.Completed := by
  cases hs : executeSingleOperation fs op with
  | ok fs' =>
    refine ⟨fs', rfl, ?_⟩
    intro o ho
    apply h
    simp only [executeOps, hs, List.mem_cons]
    exact Or.inr ho
  | error e =>
    exfalso
    have := h { op with status := .Failed, error := some e }
      (by simp [executeOps, hs])
    simp at this

theorem executeOps_map_opPair :
    ∀ (ops : List MoveOperation) (fs : Finset Path),
      ((executeOps fs ops).2.1).map opPair = ops.map opPair := by
  intro ops
  induction ops with
  | nil => intro fs; rfl
  | cons op ops ih =>
    intro fs
    cases hs : executeSingleOperation fs op with
    | ok fs' => simp [executeOps, hs, ih, opPair]
    | error e => simp [executeOps, hs, ih, opPair]

theorem rollbackFsOnly_executeOps :
    ∀ (ops : List MoveOperation) (fs : Finset Path),
      (∀ o ∈ (executeOps fs ops).2.1, o.status = OperationStatus.Completed) →
      rollbackFsOnly (executeOps fs ops).1
        ((((executeOps fs ops).2.1).map opPair).reverse) = fs := by
  intro ops
  induction ops with
  | nil => intro fs _; rfl
  | cons op ops ih =>
    intro fs h
    obtain ⟨fs', hs, h'⟩ := executeOps_completed_cons fs op ops h
    obtain ⟨hto, hfrom, hfs'⟩ := (executeSingleOperation_ok fs op fs').mp hs
    simp only [executeOps, hs, List.map_cons, List.reverse_cons]
    rw [rollbackFsOnly, List.foldl_append]
    have hih := ih fs' h'
    rw [rollbackFsOnly] at hih
    rw [hih]
    show rbStepFs fs' (op.fromPath, op.toPath) = fs
    have htof : op.toPath ∈ fs' := by
      rw [hfs']; exact Finset.mem_insert_self _ _
    unfold rbStepFs rollbackOperationStatic
    simp only [htof, not_true_eq_false, if_false]
    have hnotin : op.toPath ∉ fs.erase op.fromPath := fun hmem =>
      hto (Finset.mem_of_mem_erase hmem)
    rw [hfs', Finset.erase_insert hnotin, Finset.insert_erase hfrom]

theorem executeOps_sources_dests :
    ∀ (ops : List MoveOperation) (fs : Finset Path),
      ((ops.map MoveOperation.fromPath)
          ++ (ops.map MoveOperation.toPath)).Nodup →
      (∀ o ∈ (executeOps fs ops).2.1, o.status = OperationStatus.Completed) →
      (∀ op ∈ ops, op.fromPath ∈ fs) ∧ (∀ op ∈ ops, op.toPath ∉ fs) := by
  intro ops
  induction ops with
  | nil => intro fs _ _; exact ⟨by simp, by simp⟩
  | cons op ops ih =>
    intro fs hnd h
    obtain ⟨fs', hs, h'⟩ := executeOps_completed_cons fs op ops h
    obtain ⟨hto, hfrom, hfs'⟩ := (executeSingleOperation_ok fs op fs').mp hs
    rw [List.map_cons, List.map_cons] at hnd
    obtain ⟨hndf, hndt, hdisj⟩ := List.nodup_append.mp hnd
    have htail_nodup : ((ops.map MoveOperation.fromPath)
        ++ (ops.map MoveOperation.toPath)).Nodup := by
      refine List.Nodup.sublist ?_ hnd
      exact List.Sublist.append (List.Sublist.cons _ (List.Sublist.refl _))
        (List.Sublist.cons _ (List.Sublist.refl _))
    obtain ⟨ihf, iht⟩ := ih fs' htail_nodup h'
    constructor
    · intro o ho
      rcases List.mem_cons.mp ho with rfl | ho
      · exact hfrom
      · have h1 := ihf o ho
        rw [hfs'] at h1
        rcases Finset.mem_insert.mp h1 with heq | h1
        · exfalso
          have hmemf : o.fromPath ∈ ops.map MoveOperation.fromPath :=
            List.mem_map_of_mem _ ho
          exact hdisj (List.mem_cons_of_mem _ hmemf)
            (by rw [heq]; exact List.mem_cons_self _ _)
        · exact Finset.mem_of_mem_erase h1
    · intro o ho
      rcases List.mem_cons.mp ho with rfl | ho
      · exact hto
      · intro hmem
        have hmemt : o.toPath ∈ ops.map MoveOperation.toPath :=
          List.mem_map_of_mem _ ho
        have hne_from : o.toPath ≠ op.fromPath := fun he =>
          hdisj (by rw [← he]; exact List.mem_cons_self _ _)
            (List.mem_cons_of_mem _ hmemt)
        have hne_to : o.toPath ≠ op.toPath := fun he =>
          (List.nodup_cons.mp hndt).1 (by rw [← he]; exact hmemt)
        apply iht o ho
        rw [hfs']
        exact Finset.mem_insert.mpr
          (Or.inr (Finset.mem_erase.mpr ⟨hne_from, hmem⟩))

theorem rollbackOps_fst_eq :
    ∀ (l : List (Nat × MoveOperation)) (fs : Finset Path)
      (ops : List MoveOperation),
      (rollbackOps fs ops l).1
        = rollbackFsOnly fs (l.map (fun p => opPair p.2)) := by
  intro l
  induction l with
  | nil => intro fs ops; rfl
  | cons p rest ih =>
    intro fs ops
    obtain ⟨i, op⟩ := p
    cases hs : rollbackOperationStatic fs op.fromPath op.toPath with
    | ok fs2 =>
      simp [rollbackOps, hs, ih, rollbackFsOnly, rbStepFs, opPair]
    | error e =>
      simp [rollbackOps, hs, ih, rollbackFsOnly, rbStepFs, opPair]

theorem enumFrom_filter_completed :
    ∀ (ops : List MoveOperation) (n : Nat),
      (∀ o ∈ ops, o.status = OperationStatus.Completed) →
      (enumFrom n ops).filter
          (fun p => p.2.status == OperationStatus.Completed)
        = enumFrom n ops := by
  intro ops
  induction ops with
  | nil => intro n _; rfl
  | cons op ops ih =>
    intro n h
    have hst : op.status = OperationStatus.Completed :=
      h op (List.mem_cons_self _ _)
    simp [enumFrom, List.filter_cons, hst,
      ih (n + 1) (fun o ho => h o (List.mem_cons_of_mem _ ho))]

theorem enumFrom_map_opPair :
    ∀ (ops : List MoveOperation) (n : Nat),
      (enumFrom n ops).map (fun p => opPair p.2) = ops.map opPair := by
  intro ops
  induction ops with
  | nil => intro n; rfl
  | cons op ops ih => intro n; simp [enumFrom, ih]

theorem position?_append_all_false (p : α → Bool) :
    ∀ (l₁ l₂ : List α), (∀ a ∈ l₁, p a = false) →
      position? p (l₁ ++ l₂) = (position? p l₂).map (· + l₁.length) := by
  intro l₁
  induction l₁ with
  | nil =>
    intro l₂ _
    simp only [List.nil_append, List.length_nil]
    cases position? p l₂ <;> simp
  | cons a l₁ ih =>
    intro l₂ h
    have ha : p a = false := h a (List.mem_cons_self _ _)
    rw [List.cons_append]
    simp only [position?, ha, Bool.false_eq_true, if_false]
    rw [ih l₂ (fun b hb => h b (List.mem_cons_of_mem _ hb))]
    cases position? p l₂ with
    | none => rfl
    | some j =>
      simp only [Option.map_some', Option.some.injEq, List.length_cons]
      omega

theorem getElem?_append_length :
    ∀ (l : List α) (a : α), (l ++ [a])[l.length]? = some a := by
  intro l
  induction l with
  | nil => intro a; rfl
  | cons x l ih =>
    intro a
    simp only [List.cons_append, List.length_cons, List.getElem?_cons_succ]
    exact ih a

/-- Counterexample for C1: the batch `[a → b, c → a]` from the
filesystem `{a, c}` completes fully, but after `rollback` the
destination path `a` created by the second operation still exists (it
was restored as the first operation's source), so not every destination
path created by `execute` is removed. -/
theorem execute_rollback_roundtrip_counterexample :
    (∀ op ∈ (Executor.execute st0 plan0 1).2.1.operations,
        op.status = OperationStatus.Completed)
    ∧ plan0.operations.map MoveOperation.toPath = [["b"], ["a"]]
    ∧ (["a"] : Path)
        ∈ (Executor.rollback (Executor.execute st0 plan0 1).1 "B").1.fs := by
  decide

/-- C1 (amended): for a batch whose id is fresh in the history and whose
source and destination paths are pairwise distinct, if every operation
is `Completed` after `execute`, then `rollback` on that batch restores
every source path to existence and removes every destination path that
`execute` created (each operation is renamed back in reverse creation
order).  Without the distinctness hypothesis the destination clause
fails (see the counterexample). -/
theorem execute_rollback_roundtrip_restores (st : ExecutorState)
    (plan : MovePlan) (now : Nat)
    (hfresh : ∀ e ∈ st.history, e.batchId ≠ plan.batchId)
    (hnodup : ((plan.operations.map MoveOperation.fromPath)
        ++ (plan.operations.map MoveOperation.toPath)).Nodup)
    (hcomp : ∀ op ∈ ((Executor.execute st plan now).2.1).operations,
        op.status = OperationStatus.Completed) :
    (∀ op ∈ plan.operations,
        op.fromPath ∈ (Executor.rollback (Executor.execute st plan now).1
            plan.batchId).1.fs)
    ∧ (∀ op ∈ plan.operations,
        op.toPath ∉ (Executor.rollback (Executor.execute st plan now).1
            plan.batchId).1.fs) := by
  have hcomp' : ∀ o ∈ (executeOps st.fs plan.operations).2.1,
      o.status = OperationStatus.Completed := hcomp
  have hpred : ∀ e ∈ st.history,
      (fun e => e.batchId == plan.batchId) e = false := by
    intro e he
    simpa using hfresh e he
  have hpos : position? (fun e => e.batchId == plan.batchId)
      (st.history ++ [⟨plan.batchId, now,
        (executeOps st.fs plan.operations).2.1, false⟩])
      = some st.history.length := by
    rw [position?_append_all_false _ _ _ hpred]
    simp [position?]
  have hget : (st.history ++ [⟨plan.batchId, now,
      (executeOps st.fs plan.operations).2.1, false⟩])[st.history.length]?
      = some ⟨plan.batchId, now,
          (executeOps st.fs plan.operations).2.1, false⟩ :=
    getElem?_append_length _ _
  have hfs₂ : (Executor.rollback (Executor.execute st plan now).1
      plan.batchId).1.fs = st.fs := by
    show (Executor.rollback
      ⟨(executeOps st.fs plan.operations).1,
       st.history ++ [⟨plan.batchId, now,
         (executeOps st.fs plan.operations).2.1, false⟩]⟩
      plan.batchId).1.fs = st.fs
    simp only [Executor.rollback, hpos, hget]
    rw [enumFrom_filter_completed _ 0 hcomp']
    rw [rollbackOps_fst_eq]
    rw [List.map_reverse, enumFrom_map_opPair]
    exact rollbackFsOnly_executeOps plan.operations st.fs hcomp'
  obtain ⟨hsrc, hdst⟩ :=
    executeOps_sources_dests plan.operations st.fs hnodup hcomp'
  rw [hfs₂]
  exact ⟨hsrc, hdst⟩

/-- Witness for C1 (amended): the one-operation batch
`w/src → w/dst` on the filesystem `{w/src}`. -/
theorem execute_rollback_roundtrip_restores_witness :
    (∀ e ∈ stW.history, e.batchId ≠ planW.batchId)
    ∧ ((planW.operations.map MoveOperation.fromPath)
        ++ (planW.operations.map MoveOperation.toPath)).Nodup
    ∧ (∀ op ∈ ((Executor.execute stW planW 0).2.1).operations,
        op.status = OperationStatus.Completed)
    ∧ ((∀ op ∈ planW.operations,
          op.fromPath ∈ (Executor.rollback (Executor.execute stW planW 0).1
              planW.batchId).1.fs)
      ∧ (∀ op ∈ planW.operations,
          op.toPath ∉ (Executor.rollback (Executor.execute stW planW 0).1
              planW.batchId).1.fs)) :=
  ⟨by decide, by decide, by decide,
   execute_rollback_roundtrip_restores stW planW 0 (by decide) (by decide)
     (by decide)⟩

end Orderly
